import Mathlib

/-!
Verification of the fview directory-listing core (src/config.rs, src/string_ext.rs)
against its natural-language specification.

The Rust code is shallowly embedded:

* A filesystem is a finite tree of `Node`s.  A node carries the data that the
  code can observe about the corresponding path: its file name as an OS string
  (which may or may not be valid UTF-8), the result of `metadata()` (`none`
  models a stat failure), the file-type tests used for the icon, and its
  children (empty for non-directories).
* `walkdir` with `min_depth(1)`, `max_depth(d)`, `sort_by(cmp)` and
  `filter_entry(pred)` is embedded as a depth-first traversal of the root's
  child forest.  `walkdir` sorts each directory listing with Rust's stable
  `sort_by` at the moment the directory is read; since the comparison key of a
  node does not depend on its subtree, this is embedded equivalently by first
  sorting every directory of the tree (`sortForest`) and then walking the
  sorted tree (`walkForest`).  Rust's stable `sort_by` is embedded as
  insertion sort (`List.insertionSort`), which is extensionally the unique
  stable sort for a total preorder.
* Machine integers: sizes and permission modes are `Nat` (the code only
  divides and masks, so no wrap-around can occur); `SystemTime` is embedded as
  `Int` seconds relative to `UNIX_EPOCH` with its total order (`SystemTime`
  can represent instants before the epoch).
* Fallible code returns `Option`/`Except`; a Rust panic (out-of-boundary byte
  slice) is `none`, and `std::process::exit(code)` is `Except.error (.exit code)`.
* Out-of-scope external collaborators (locale date formatting, the `colored`
  crate's escape-code emission) are modelled as simple computable functions;
  no claim depends on their exact output, only on how the core combines them.
-/

namespace Fview

/-- An OS file name: either valid UTF-8 text or a non-UTF-8 byte string
(kept opaque, identified by its raw bytes).  `toStr` is `OsStr::to_str`. -/
inductive OsName where
  | utf8 (s : String)
  | invalid (bytes : List Nat)
deriving DecidableEq, Repr

/-- `OsStr::to_str`: `some` exactly when the name is valid UTF-8. -/
def OsName.toStr : OsName → Option String
  | .utf8 s => some s
  | .invalid _ => none

/-- Result of a successful `metadata()` call on a path. -/
structure Stat where
  /-- `metadata.created().ok()`: creation time as seconds relative to
  `UNIX_EPOCH` (`SystemTime` is totally ordered and can lie before the
  epoch); `none` when the platform reports no creation time. -/
  created : Option Int
  /-- `metadata.permissions().mode()`. -/
  mode : Nat
  /-- `metadata.len()`: size in bytes. -/
  size : Nat
deriving DecidableEq, Repr

/-- One filesystem node, carrying everything the code observes about the
corresponding path.  `children` is empty for non-directories. -/
inductive Node where
  | mk (name : OsName) (canonPath : String) (isDir : Bool) (isSymlink : Bool)
       (isFile : Bool) (stat : Option Stat) (children : List Node)

def Node.name : Node → OsName
  | .mk nm _ _ _ _ _ _ => nm

/-- `entry.path().canonicalize().unwrap().to_str().unwrap()`: the canonical
absolute path, resolved externally by the OS (the unwrap-panic paths for a
vanished file are not modelled). -/
def Node.canonPath : Node → String
  | .mk _ cp _ _ _ _ _ => cp

def Node.isDir : Node → Bool
  | .mk _ _ d _ _ _ _ => d

def Node.isSymlink : Node → Bool
  | .mk _ _ _ sl _ _ _ => sl

def Node.isFile : Node → Bool
  | .mk _ _ _ _ f _ _ => f

/-- `entry.path().metadata().ok()`. -/
def Node.stat : Node → Option Stat
  | .mk _ _ _ _ _ st _ => st

def Node.children : Node → List Node
  | .mk _ _ _ _ _ _ cs => cs

/-- File size units supported by the code (`enum Unit` in config.rs). -/
inductive Unit where
  | Bytes
  | KB
  | MB
  | GB
  | TB
deriving DecidableEq, Repr

/-- The run configuration (`struct Config` in config.rs).  The root directory
string is not part of the model: the traversal receives the root's child
forest directly. -/
structure Config where
  max_depth : Option Nat
  canonicalize : Bool
  show_hidden : Bool
  table : Bool
  unit : Option Unit
  reversed : Bool
deriving DecidableEq, Repr

/-! ## string_ext.rs -/

/-- Rust `str::len`: the UTF-8 byte length of a string. -/
def rustByteLen (s : String) : Nat :=
  (s.data.map Char.utf8Size).sum

/-- The first `k` bytes of a UTF-8 character list, as characters:
`some` exactly when byte index `k` falls on a character boundary
(Rust's `&s[..k]`; `none` models the slice panic). -/
def byteTake : List Char → Nat → Option (List Char)
  | _, 0 => some []
  | [], _ + 1 => none
  | c :: cs, k + 1 =>
    if c.utf8Size ≤ k + 1 then (byteTake cs (k + 1 - c.utf8Size)).map (c :: ·)
    else none

/-- Rust `&s[..k]` for `k ≤ s.len()`: `none` models the panic raised when
`k` is not a character boundary. -/
def byteSlice (s : String) (k : Nat) : Option String :=
  (byteTake s.data k).map String.mk

/-- `StrExt::truncate_ellipsis` / `StringExt::truncate_ellipsis`
(string_ext.rs): if `self.len() > max_len`, the result is
`format!("{}…", &self[..max_len.saturating_sub(1)])`, otherwise the string is
returned unchanged.  `none` models the byte-slice panic. -/
def truncate_ellipsis (s : String) (max_len : Nat) : Option String :=
  if rustByteLen s > max_len then
    (byteSlice s (max_len - 1)).map (· ++ "…")
  else
    some s

/-- Rust `format!("{:<w$}", s)` on a plain string: left-align, pad with
spaces to `w` characters (Rust counts characters of the formatted text). -/
def padRightChars (s : String) (w : Nat) : String :=
  s ++ String.mk (List.replicate (w - s.length) ' ')

/-- Rust `format!("{:>w$}", s)`: right-align, pad with spaces to `w`
characters. -/
def padLeftChars (s : String) (w : Nat) : String :=
  String.mk (List.replicate (w - s.length) ' ') ++ s

/-- One text column of `render_as_row`: the field is truncated with
`truncate_ellipsis (w - 1)` and then padded left-aligned to width `w` by the
`format!` string.  `none` models the truncation panic. -/
def renderTextField (s : String) (w : Nat) : Option String :=
  (truncate_ellipsis s (w - 1)).map (padRightChars · w)

/-! ## Unit parsing and size conversion (config.rs) -/

/-- Rust `str::to_lowercase`, embedded as per-character lowercasing (the two
agree on every alias the parser accepts; Unicode special-casing is not
relevant to any claim). -/
def rustToLowercase (s : String) : String :=
  String.mk (s.data.map Char.toLower)

/-- `Unit::from_str` (config.rs): matches on the lowercased input. -/
def from_str (s : String) : Except String Unit :=
  match rustToLowercase s with
  | "b" | "bytes" => .ok .Bytes
  | "k" | "kb" | "kib" => .ok .KB
  | "m" | "mb" | "mib" => .ok .MB
  | "g" | "gb" | "gib" => .ok .GB
  | "t" | "tb" | "tib" => .ok .TB
  | _ => .error (("Invalid unit: ") ++ s)

/-- `normalize_size_unit` (config.rs). -/
def normalize_size_unit : Unit → String
  | .Bytes => "b"
  | .KB => "kib"
  | .MB => "mib"
  | .GB => "gib"
  | .TB => "tib"

/-- `get_file_size` (config.rs): on stat success, the byte count divided by
the unit's divisor (integer division), rendered as `"{size} {unit}"`. -/
def get_file_size (n : Node) (unit : Unit) : Option String :=
  match n.stat with
  | some metadata =>
    let size_in_bytes := metadata.size
    let size := match unit with
      | .Bytes => size_in_bytes
      | .KB => size_in_bytes / 1024
      | .MB => size_in_bytes / (1024 * 1024)
      | .GB => size_in_bytes / (1024 * 1024 * 1024)
      | .TB => size_in_bytes / (1024 * 1024 * 1024 * 1024)
    some (toString size ++ " " ++ normalize_size_unit unit)
  | none => none

/-- The exponent `n` with divisor `1024 ^ n` for each unit, as the
specification words it (`n = 0` for bytes up to `4` for TB). -/
def unitExponent : Unit → Nat
  | .Bytes => 0
  | .KB => 1
  | .MB => 2
  | .GB => 3
  | .TB => 4

/-! ## The sort comparator (view_files, config.rs lines 118-137) -/

/-- `SystemTime::cmp`: the total order on timestamps. -/
def cmpInt (a b : Int) : Ordering :=
  if a < b then .lt else if a = b then .eq else .gt

/-- The creation-time key the comparator sorts by:
`metadata().ok().and_then(|m| m.created().ok()).unwrap_or(SystemTime::UNIX_EPOCH)`,
with the epoch at `0`. -/
def createdKey (n : Node) : Int :=
  (n.stat.bind Stat.created).getD 0

/-- The closure passed to `WalkDir::sort_by`: compares creation keys,
swapping the arguments when `reversed` is set. -/
def cmpEntries (reversed : Bool) (a b : Node) : Ordering :=
  if reversed then cmpInt (createdKey b) (createdKey a)
  else cmpInt (createdKey a) (createdKey b)

/-- The non-strict order induced by the comparator (`cmp a b ≠ Greater`),
used to express Rust's stable `sort_by` as an insertion sort. -/
def nodeLe (reversed : Bool) (a b : Node) : Prop :=
  cmpEntries reversed a b ≠ Ordering.gt

instance (reversed : Bool) : DecidableRel (nodeLe reversed) := fun a b => by
  unfold nodeLe; infer_instance

/-! ## Traversal (view_files, config.rs lines 115-160) -/

/-- Rust `str::starts_with('.')` with a `char` pattern: the first character
is a dot. -/
def startsWithDot (s : String) : Bool :=
  match s.data with
  | [] => false
  | c :: _ => c == '.'

/-- The name test of `is_hidden` (config.rs): the name converts to UTF-8 and
starts with a dot; a non-UTF-8 name counts as not hidden (`unwrap_or(false)`). -/
def hiddenName (nm : OsName) : Bool :=
  (nm.toStr.map (fun s => startsWithDot s)).getD false

/-- `is_hidden` (config.rs), applied to an entry. -/
def is_hidden (n : Node) : Bool :=
  hiddenName n.name

/-- The `filter_entry` predicate: `config.show_hidden || !is_hidden(e)`. -/
def keepEntry (show_hidden : Bool) (n : Node) : Bool :=
  show_hidden || !is_hidden n

mutual
/-- Recursively sort every directory listing of a subtree with the stable
comparator sort (walkdir applies `sort_by` to each directory as it reads it;
since a node's key is independent of its subtree, sorting the whole tree
up front is extensionally the same traversal). -/
def sortTree (reversed : Bool) : Node → Node
  | .mk nm cp d sl f st cs =>
    .mk nm cp d sl f st (List.insertionSort (nodeLe reversed) (sortForest reversed cs))

/-- `sortTree` mapped over a directory listing (order-preserving). -/
def sortForest (reversed : Bool) : List Node → List Node
  | [] => []
  | n :: ns => sortTree reversed n :: sortForest reversed ns
end

/-- One directory listing as walkdir yields it: every subtree recursively
sorted, and the listing itself stably sorted by the comparator. -/
def sortListing (reversed : Bool) (ns : List Node) : List Node :=
  List.insertionSort (nodeLe reversed) (sortForest reversed ns)

/-- An emitted entry: its path relative to the root (one name per depth
level) together with the node itself. -/
abbrev Entry := List OsName × Node

/-- Depth-first traversal of a (pre-sorted) forest, as produced by walkdir
with `min_depth(1)`, `max_depth(maxD)` and `filter_entry(keepEntry sh)`:
entries at depth > `maxD` are never produced, a rejected entry is skipped
together with its whole subtree, and a kept entry is emitted before its
children (`contents_first` is off).  The recursion is driven by the `fuel`
argument, the number of depth levels still allowed; since the depth grows by
one per level, a run started with `fuel = maxD` and `depth = 1` never
exhausts the fuel before the `depth ≤ maxD` bound cuts the walk anyway, so
the fuel is only the structural-termination measure, not a semantic cut. -/
def walkForest (sh : Bool) (maxD : Nat) : Nat → Nat → List OsName → List Node → List Entry
  | 0, _, _, _ => []
  | fuel + 1, depth, path, ns =>
    ns.flatMap fun n =>
      if depth ≤ maxD then
        if keepEntry sh n then
          (path ++ [n.name], n) ::
            walkForest sh maxD fuel (depth + 1) (path ++ [n.name]) n.children
        else []
      else []

/-- The entries `view_files` iterates over, in order: the sorted walk of the
root's child forest (depth 1 = direct children of the root; the root itself
is excluded by `min_depth(1)`). -/
def viewEntries (cfg : Config) (rootChildren : List Node) : List Entry :=
  walkForest cfg.show_hidden (cfg.max_depth.getD 1) (cfg.max_depth.getD 1) 1 []
    (sortListing cfg.reversed rootChildren)

/-- The same walk in raw discovery order, i.e. without the `sort_by`
comparator: the order in which the directory entries are handed to the
sorter. -/
def discoveryEntries (cfg : Config) (rootChildren : List Node) : List Entry :=
  walkForest cfg.show_hidden (cfg.max_depth.getD 1) (cfg.max_depth.getD 1) 1 [] rootChildren

/-- The paths of every node the walkdir iterator touches (reads from its
parent directory and evaluates the `filter_entry` predicate on): children of
a directory are read only when the directory itself was kept, so nothing
beneath a rejected directory is ever touched.  Fuel-driven like
`walkForest`. -/
def visitedPaths (sh : Bool) (maxD : Nat) : Nat → Nat → List OsName → List Node → List (List OsName)
  | 0, _, _, _ => []
  | fuel + 1, depth, path, ns =>
    ns.flatMap fun n =>
      if depth ≤ maxD then
        (path ++ [n.name]) ::
          (if keepEntry sh n then
            visitedPaths sh maxD fuel (depth + 1) (path ++ [n.name]) n.children
           else [])
      else []

/-- The visited-node paths of a full run (over the sorted forest, like
`viewEntries`). -/
def viewVisited (cfg : Config) (rootChildren : List Node) : List (List OsName) :=
  visitedPaths cfg.show_hidden (cfg.max_depth.getD 1) (cfg.max_depth.getD 1) 1 []
    (sortListing cfg.reversed rootChildren)

/-- Sibling file names are pairwise distinct, at every level: the invariant
every real directory tree satisfies (two entries of one directory cannot
share a name). -/
inductive ForestDedup : List Node → Prop where
  | nil : ForestDedup []
  | cons {n : Node} {ns : List Node} :
      (∀ m ∈ ns, m.name ≠ n.name) → ForestDedup n.children → ForestDedup ns →
      ForestDedup (n :: ns)

/-- Every directory listing of the forest is sorted by the comparator's
non-strict order, at every level: the shape `sortListing` produces. -/
inductive ForestSorted (rev : Bool) : List Node → Prop where
  | nil : ForestSorted rev []
  | cons {n : Node} {ns : List Node} :
      (∀ m ∈ ns, nodeLe rev n m) → ForestSorted rev n.children → ForestSorted rev ns →
      ForestSorted rev (n :: ns)

/-! ## Rendering (config.rs lines 163-333) -/

/-- A way a row computation can abort the process: `std::process::exit(code)`
in `render_as_row`'s `map_err` closure, or a byte-slice panic inside
`truncate_ellipsis`. -/
inductive ProcAbort where
  | exit (code : Nat)
  | panic
deriving DecidableEq, Repr

/-- `get_file_icon` (config.rs): directory, then symlink, then regular file,
in that priority order; anything else gets no icon. -/
def get_file_icon (n : Node) : String :=
  match n.isDir, n.isSymlink, n.isFile with
  | true, _, _ => "\x1b[34m\x1b[0m"
  | _, true, _ => "\x1b[36m\x1b[0m"
  | _, _, true => "\x1b[32m\x1b[0m"
  | _, _, _ => ""

/-- `get_file_name` (config.rs): fails exactly when the file name is not
UTF-8; otherwise the icon, a space, and either the canonicalized path or the
bare name. -/
def get_file_name (n : Node) (canonicalize : Bool) : Except String String :=
  match n.name.toStr with
  | none => .error ("Failed to convert file name to string")
  | some name =>
    let name := if canonicalize then n.canonPath else name
    .ok (get_file_icon n ++ " " ++ name)

/-- Modelled from the spec: locale-aware date formatting
(`chrono_lc`'s `formatl("%x %X", ...)`) is an out-of-scope external
collaborator; it is modelled as a plain computable rendering of the
timestamp.  No claim depends on the concrete text. -/
def formatDate (t : Int) : String :=
  toString t

/-- `get_file_creation_date` (config.rs): `none` when the stat or the
creation timestamp is unavailable; no fallback to the modification time. -/
def get_file_creation_date (n : Node) : Option String :=
  (n.stat.bind Stat.created).map formatDate

/-- The `to_rwx` closure in `get_file_permissions`: one 3-bit group rendered
as `r`/`w`/`x`/`-` flags. -/
def to_rwx (perms : Nat) (shift : Nat) : String :=
  let bits := (perms >>> shift) &&& 7
  (if bits &&& 4 ≠ 0 then "r" else "-") ++
    (if bits &&& 2 ≠ 0 then "w" else "-") ++
    (if bits &&& 1 ≠ 0 then "x" else "-")

/-- `get_file_permissions` (config.rs): the low nine mode bits as an
`rwxrwxrwx` string, `none` on stat failure. -/
def get_file_permissions (n : Node) : Option String :=
  n.stat.map (fun metadata =>
    let perms := metadata.mode &&& 0o777
    to_rwx perms 6 ++ to_rwx perms 3 ++ to_rwx perms 0)

/-- The `colored` crate's `.bold()` on a terminal: wraps the text in the
bold/reset escape codes (escape-code selection is an out-of-scope external
collaborator; the claims only need that both render modes share it). -/
def bold (s : String) : String :=
  "\x1b[1m" ++ s ++ "\x1b[0m"

/-- Lifts the result of a Rust byte slice: `none` becomes a panic. -/
def ofSlice : Option String → Except ProcAbort String
  | some s => .ok s
  | none => .error .panic

/-- `render_as_row` (config.rs).  On a name-resolution failure the `map_err`
closure prints the error and calls `std::process::exit(1)` — modelled as
`ProcAbort.exit 1`; the later `"-"` fallback for the name is therefore
unreachable.  Otherwise each attribute is resolved independently with a `"-"`
placeholder, truncated to `width - 1`, and padded into fixed columns. -/
def render_as_row (n : Node) (canonicalize : Bool) (unit : Unit) :
    Except ProcAbort String := do
  let name ← match get_file_name n canonicalize with
    | .error _ => Except.error (ProcAbort.exit 1)
    | .ok nm => Except.ok nm
  let creation_date := (get_file_creation_date n).getD ("-")
  let permissions := (get_file_permissions n).getD ("-")
  let size := (get_file_size n unit).getD ("-")
  let nameT ← ofSlice (truncate_ellipsis name (35 - 1))
  let dateT ← ofSlice (truncate_ellipsis creation_date (20 - 1))
  let permT ← ofSlice (truncate_ellipsis permissions (12 - 1))
  Except.ok (padRightChars (bold nameT) 35 ++ " " ++ padRightChars dateT 20 ++ " " ++
    padRightChars permT 12 ++ " " ++ padLeftChars size 10)

/-- `render_as_table` (config.rs): each entry's row followed by a newline,
concatenated. -/
def render_as_table : List Node → Bool → Unit → Except ProcAbort String
  | [], _, _ => .ok ""
  | n :: rest, canonicalize, unit => do
    let row ← render_as_row n canonicalize unit
    let t ← render_as_table rest canonicalize unit
    pure (row ++ "\n" ++ t)

/-- The output loop of `view_files`: for each entry, table mode prints
`render_as_table(vec![entry])` via `println!` and row mode prints
`render_as_row(entry)` via `println!` (each `println!` appends one newline).
The result is the full standard-output text plus the abort, if any, that cut
the loop short. -/
def runEntries (table canonicalize : Bool) (unit : Unit) :
    List Node → String × Option ProcAbort
  | [] => ("", none)
  | n :: ns =>
    let rendered : Except ProcAbort String :=
      if table then (render_as_table [n] canonicalize unit).map (· ++ "\n")
      else (render_as_row n canonicalize unit).map (· ++ "\n")
    match rendered with
    | .error a => ("", some a)
    | .ok s =>
      let rest := runEntries table canonicalize unit ns
      (s ++ rest.1, rest.2)

/-- `view_files` (config.rs): resolve the defaults, traverse, sort, render;
returns the standard-output text and the abort (if the run died mid-way). -/
def view_files (cfg : Config) (rootChildren : List Node) : String × Option ProcAbort :=
  let unit := cfg.unit.getD .Bytes
  runEntries cfg.table cfg.canonicalize unit ((viewEntries cfg rootChildren).map (·.2))

/-- Emit a list of row results with a fixed suffix after each one, stopping
at the first abort: the shape shared by both output modes of `view_files`. -/
def emitAll : List (Except ProcAbort String) → String → String × Option ProcAbort
  | [], _ => ("", none)
  | .error a :: _, _ => ("", some a)
  | .ok s :: rest, suffix =>
    let t := emitAll rest suffix
    (s ++ suffix ++ t.1, t.2)

/-! ## Helper constructors for concrete inputs -/

/-- A regular file with the given UTF-8 name, creation time, and size. -/
def fileNode (nm : String) (created : Option Int) (size : Nat) : Node :=
  .mk (.utf8 nm) "" false false true (some ⟨created, 0o644, size⟩) []

/-- A directory with the given UTF-8 name, creation time, and children. -/
def dirNode (nm : String) (created : Option Int) (cs : List Node) : Node :=
  .mk (.utf8 nm) "" true false false (some ⟨created, 0o755, 4096⟩) cs

/-- A regular file whose name is not valid UTF-8. -/
def rawFileNode (bytes : List Nat) (created : Option Int) (size : Nat) : Node :=
  .mk (.invalid bytes) "" false false true (some ⟨created, 0o644, size⟩) []

/-- `cfg` with its table flag replaced. -/
def withTable (cfg : Config) (t : Bool) : Config :=
  ⟨cfg.max_depth, cfg.canonicalize, cfg.show_hidden, t, cfg.unit, cfg.reversed⟩

/-- The observable identity of an emitted entry for ordering questions: its
path and its creation key. -/
def entryProj (e : Entry) : List OsName × Int :=
  (e.1, createdKey e.2)

/-- The projected subsequence of an output that lies in one tie class: the
entries that are direct children of the directory at path `q` and share the
creation key `k`.  Stability of the sort says exactly that this subsequence
is the same for the sorted walk and the discovery-order walk. -/
def tieClass (q : List OsName) (k : Int) (l : List Entry) : List (List OsName × Int) :=
  (l.filter (fun e => (e.1.dropLast == q) && (createdKey e.2 == k))).map entryProj

/-! # Theorems -/

/-! ## Truncation (C6, C9) -/

/-- `byteTake` on a string of single-byte characters never hits a boundary
panic: it returns the plain character prefix. -/
theorem byteTake_oneByte (l : List Char) (hone : ∀ c ∈ l, c.utf8Size = 1) :
    ∀ k, k ≤ l.length → byteTake l k = some (l.take k) := by
  induction l with
  | nil =>
    intro k hk
    have hz : k = 0 := by simpa using hk
    subst hz; rfl
  | cons c cs ih =>
    intro k hk
    cases k with
    | zero => rfl
    | succ k =>
      have hc : c.utf8Size = 1 := hone c (by simp)
      simp only [byteTake, hc]
      rw [if_pos (by omega)]
      have h2 : k + 1 - 1 = k := by omega
      rw [h2, ih (fun c hc => hone c (by simp [hc])) k (by simpa using hk)]
      simp [List.take]

/-- On single-byte characters the Rust byte length is the character count. -/
theorem sum_utf8Size_oneByte (l : List Char) (hone : ∀ c ∈ l, c.utf8Size = 1) :
    (l.map Char.utf8Size).sum = l.length := by
  induction l with
  | nil => rfl
  | cons c cs ih =>
    simp only [List.map_cons, List.sum_cons, List.length_cons, hone c (by simp),
      ih (fun c hc => hone c (by simp [hc]))]
    omega

theorem rustByteLen_oneByte (s : String) (hone : ∀ c ∈ s.data, c.utf8Size = 1) :
    rustByteLen s = s.data.length :=
  sum_utf8Size_oneByte s.data hone

/-- Claim C9 (evaluation at the failing input): `truncate_ellipsis` is not
total — on the two-character string `"éa"` (3 bytes: `é` is 2 bytes) with
`max_len = 2`, the byte length 3 exceeds 2, and the byte slice at index
`max_len - 1 = 1` falls inside the encoding of `é`, which in the Rust code
is an out-of-char-boundary slice panic (modelled as `none`). -/
theorem c9_truncate_panics_on_multibyte :
    truncate_ellipsis ("éa") 2 = none := by decide

/-- Claim C6 (counterexample): with the date column width 20, a field of
exactly 20 characters does not render unchanged: the code truncates
whenever the byte length exceeds `width - 1`, keeping `width - 2 = 18`
characters plus the ellipsis, for a total of `width - 1 = 19` characters —
not `width` — before padding. -/
theorem c6_exact_width_field_truncated :
    ("aaaaaaaaaaaaaaaaaaaa").length = 20 ∧
    renderTextField ("aaaaaaaaaaaaaaaaaaaa") 20 = some ("aaaaaaaaaaaaaaaaaa… ") ∧
    renderTextField ("aaaaaaaaaaaaaaaaaaaa") 20 ≠ some ("aaaaaaaaaaaaaaaaaaaa") ∧
    ("aaaaaaaaaaaaaaaaaa…").length = 19 := by
  constructor
  · decide
  constructor
  · decide
  constructor
  · decide
  · decide

/-- Claim C6 (amended): a text field is truncated against a budget of
`width - 1`, not `width`: a field of byte length at most `width - 1` renders
unchanged and padded to `width`; a field of byte length `width` or more (for
single-byte characters) renders as its first `width - 2` characters plus the
ellipsis marker, `width - 1` characters in total, before padding. -/
theorem c6_field_truncation (s : String) (w : Nat)
    (hone : ∀ c ∈ s.data, c.utf8Size = 1) (hw : 2 ≤ w) :
    (rustByteLen s ≤ w - 1 → renderTextField s w = some (padRightChars s w)) ∧
    (w ≤ rustByteLen s →
      renderTextField s w =
        some (padRightChars (String.mk (s.data.take (w - 2)) ++ "…") w) ∧
      (String.mk (s.data.take (w - 2)) ++ "…").length = w - 1) := by
  have hlen := rustByteLen_oneByte s hone
  constructor
  · intro hle
    unfold renderTextField truncate_ellipsis
    rw [if_neg (by omega)]
    rfl
  · intro hge
    have hdata : w - 2 ≤ s.data.length := by omega
    unfold renderTextField truncate_ellipsis byteSlice
    rw [if_pos (by omega)]
    have h1 : w - 1 - 1 = w - 2 := by omega
    rw [h1, byteTake_oneByte s.data hone (w - 2) hdata]
    refine ⟨rfl, ?_⟩
    rw [String.length_append]
    have h3 : (String.mk (s.data.take (w - 2))).length = w - 2 := by
      simpa [List.length_take] using Nat.min_eq_left hdata
    have h4 : ("…").length = 1 := rfl
    omega

/-- Witness for `c6_field_truncation` at `s = "abcdef"`, `w = 5`. -/
theorem c6_field_truncation_witness :
    renderTextField ("abcdef") 5 = some ("abc… ") ∧ ("abc…").length = 4 := by
  have h := (c6_field_truncation ("abcdef") 5 (by decide) (by decide)).2 (by decide)
  exact ⟨h.1.trans (by decide), by decide⟩

/-! ## Size conversion and unit parsing (C8, C10) -/

/-- Claim C8: whenever the stat succeeds, the displayed size value is the
byte count divided by `1024 ^ n` with truncating integer division, where `n`
is the unit's exponent (0 for bytes through 4 for TB), rendered with the
normalized unit suffix. -/
theorem c8_size_conversion (n : Node) (st : Stat) (u : Unit) (h : n.stat = some st) :
    get_file_size n u =
      some (toString (st.size / 1024 ^ unitExponent u) ++ " " ++ normalize_size_unit u) := by
  cases u <;> simp [get_file_size, h, unitExponent, normalize_size_unit]

/-- Witness for `c8_size_conversion`: the three examples from the claim —
1024 bytes at KB is `"1 kib"`, 1048576 bytes at MB is `"1 mib"`, and 1023
bytes at KB truncates to `"0 kib"`. -/
theorem c8_size_conversion_witness :
    get_file_size (fileNode ("k") none 1024) Unit.KB = some ("1 kib") ∧
    get_file_size (fileNode ("m") none 1048576) Unit.MB = some ("1 mib") ∧
    get_file_size (fileNode ("k2") none 1023) Unit.KB = some ("0 kib") :=
  ⟨(c8_size_conversion (fileNode ("k") none 1024) ⟨none, 0o644, 1024⟩ Unit.KB rfl).trans
     (by decide),
   (c8_size_conversion (fileNode ("m") none 1048576) ⟨none, 0o644, 1048576⟩ Unit.MB rfl).trans
     (by decide),
   (c8_size_conversion (fileNode ("k2") none 1023) ⟨none, 0o644, 1023⟩ Unit.KB rfl).trans
     (by decide)⟩

/-- Claim C10: parsing round-trips with normalization (`from_str
(normalize_size_unit u) = Ok u` for every unit), and `from_str` is
case-insensitive: on every accepted input it agrees with `from_str` of the
lowercased input. -/
theorem c10_unit_roundtrip :
    (∀ u : Unit, from_str (normalize_size_unit u) = .ok u) ∧
    (∀ (s : String) (u : Unit), from_str s = .ok u →
      from_str s = from_str (rustToLowercase s)) := by
  constructor
  · intro u; cases u <;> rfl
  · intro s u h
    unfold from_str at h ⊢
    split at h <;> rename_i heq
    all_goals first
      | (rw [heq]; rfl)
      | exact absurd h (by simp)

/-- Witness for `c10_unit_roundtrip` at the alias `"KiB"`. -/
theorem c10_unit_roundtrip_witness :
    from_str ("KiB") = .ok Unit.KB ∧
    from_str ("KiB") = from_str (rustToLowercase ("KiB")) :=
  ⟨by rfl, c10_unit_roundtrip.2 ("KiB") Unit.KB (by rfl)⟩

/-! ## Sorting machinery shared by the ordering claims -/

/-- The ascending comparator's non-strict order is comparison of the
creation keys. -/
theorem nodeLe_false_iff (a b : Node) :
    nodeLe false a b ↔ createdKey a ≤ createdKey b := by
  unfold nodeLe cmpEntries cmpInt
  simp only [if_false, Bool.false_eq_true, ite_false]
  split_ifs with h1 h2
  · exact iff_of_true (by decide) (le_of_lt h1)
  · exact iff_of_true (by decide) (le_of_eq h2)
  · exact iff_of_false (by simp) (by omega)

/-- The reversed comparator's non-strict order is the opposite comparison. -/
theorem nodeLe_true_iff (a b : Node) :
    nodeLe true a b ↔ createdKey b ≤ createdKey a := by
  unfold nodeLe cmpEntries cmpInt
  simp only [if_true]
  split_ifs with h1 h2
  · exact iff_of_true (by decide) (le_of_lt h1)
  · exact iff_of_true (by decide) (le_of_eq h2)
  · exact iff_of_false (by simp) (by omega)

theorem nodeLe_total (rev : Bool) (a b : Node) : nodeLe rev a b ∨ nodeLe rev b a := by
  cases rev
  · rw [nodeLe_false_iff, nodeLe_false_iff]; omega
  · rw [nodeLe_true_iff, nodeLe_true_iff]; omega

theorem nodeLe_transitive (rev : Bool) (a b c : Node) :
    nodeLe rev a b → nodeLe rev b c → nodeLe rev a c := by
  cases rev
  · rw [nodeLe_false_iff, nodeLe_false_iff, nodeLe_false_iff]; omega
  · rw [nodeLe_true_iff, nodeLe_true_iff, nodeLe_true_iff]; omega

instance (rev : Bool) : IsTotal Node (nodeLe rev) :=
  ⟨nodeLe_total rev⟩

instance (rev : Bool) : IsTrans Node (nodeLe rev) :=
  ⟨nodeLe_transitive rev⟩

theorem sortForest_eq_map (rev : Bool) : ∀ ns : List Node,
    sortForest rev ns = ns.map (sortTree rev)
  | [] => rfl
  | n :: ns => by rw [sortForest, sortForest_eq_map rev ns, List.map_cons]

theorem sortTree_name (rev : Bool) (n : Node) : (sortTree rev n).name = n.name := by
  cases n; rfl

theorem sortTree_createdKey (rev : Bool) (n : Node) :
    createdKey (sortTree rev n) = createdKey n := by
  cases n; rfl

theorem sortTree_keepEntry (rev : Bool) (sh : Bool) (n : Node) :
    keepEntry sh (sortTree rev n) = keepEntry sh n := by
  cases n; rfl

theorem sortTree_children (rev : Bool) (n : Node) :
    (sortTree rev n).children = sortListing rev n.children := by
  cases n; rfl

theorem sortListing_perm (rev : Bool) (ns : List Node) :
    (sortListing rev ns).Perm (ns.map (sortTree rev)) := by
  rw [sortListing, sortForest_eq_map]
  exact List.perm_insertionSort _ _

theorem mem_sortListing {rev : Bool} {ns : List Node} {n : Node}
    (h : n ∈ sortListing rev ns) : ∃ m ∈ ns, n = sortTree rev m := by
  have := (sortListing_perm rev ns).mem_iff.mp h
  simpa [eq_comm] using this

theorem pairwise_sortListing (rev : Bool) (ns : List Node) :
    List.Pairwise (nodeLe rev) (sortListing rev ns) := by
  rw [sortListing]
  exact List.sorted_insertionSort (nodeLe rev) _

/-- Inserting an element that is `r`-below every other element of its class
keeps the class-filtered subsequence intact, with the element in front when
it belongs to the class: the heart of tie-stability. -/
theorem orderedInsert_filter_of_tied {α : Type} {r : α → α → Prop} [DecidableRel r]
    (p : α → Bool) (a : α) :
    ∀ l : List α, (∀ b ∈ l, p a = true → p b = true → r a b) →
      (List.orderedInsert r a l).filter p =
        if p a = true then a :: l.filter p else l.filter p := by
  intro l
  induction l with
  | nil =>
    intro _
    by_cases hp : p a = true <;> simp [List.orderedInsert, List.filter, hp]
  | cons b s ih =>
    intro h
    rw [List.orderedInsert]
    by_cases hr : r a b
    · rw [if_pos hr]
      by_cases hp : p a = true <;> simp [List.filter_cons, hp]
    · rw [if_neg hr]
      have ihs := ih (fun c hc => h c (List.mem_cons_of_mem b hc))
      by_cases hpa : p a = true
      · have hpb : p b = false := by
          by_contra hpb
          exact hr (h b (List.mem_cons_self b s) hpa (by simpa using hpb))
        simp [List.filter_cons, hpb, hpa, ihs]
      · simp [List.filter_cons, hpa] at ihs
        simp [List.filter_cons, hpa, ihs]

/-- Rust's stable sort does not reorder a class of mutually tied elements:
filtering the sorted list to the class gives the input-order subsequence. -/
theorem insertionSort_filter_of_tied {α : Type} {r : α → α → Prop} [DecidableRel r]
    (p : α → Bool) (ht : ∀ a b, p a = true → p b = true → r a b) (l : List α) :
    (List.insertionSort r l).filter p = l.filter p := by
  induction l with
  | nil => rfl
  | cons a l ih =>
    rw [List.insertionSort,
      orderedInsert_filter_of_tied p a _ (fun b _ hpa hpb => ht a b hpa hpb), ih]
    by_cases hp : p a = true <;> simp [List.filter_cons, hp]

/-- Every emitted entry extends the walked path by the name of one of the
listing's nodes; if it extends it by exactly one component, it is that
node's own entry. -/
theorem walkForest_shape (sh : Bool) (maxD : Nat) :
    ∀ (fuel depth : Nat) (path : List OsName) (ns : List Node) (e : Entry),
      e ∈ walkForest sh maxD fuel depth path ns →
      ∃ n ∈ ns, ∃ rest : List OsName,
        e.1 = path ++ n.name :: rest ∧ (rest = [] → e = (path ++ [n.name], n)) := by
  intro fuel
  induction fuel with
  | zero =>
    intro depth path ns e he
    simp [walkForest] at he
  | succ fuel ih =>
    intro depth path ns e he
    rw [walkForest] at he
    rcases List.mem_flatMap.mp he with ⟨n, hn, hmem⟩
    by_cases hd : depth ≤ maxD
    · rw [if_pos hd] at hmem
      by_cases hk : keepEntry sh n = true
      · rw [if_pos hk] at hmem
        rcases List.mem_cons.mp hmem with hmem | hmem
        · exact ⟨n, hn, [], by rw [hmem], fun _ => hmem⟩
        · rcases ih (depth + 1) (path ++ [n.name]) n.children e hmem with
            ⟨m, _, rest', hrest', _⟩
          refine ⟨n, hn, m.name :: rest', ?_, by simp⟩
          rw [hrest']
          simp
      · rw [if_neg hk] at hmem
        simp at hmem
    · rw [if_neg hd] at hmem
      simp at hmem

/-- The nodes of a forest are heavier than their own child listings, for the
strong inductions below. -/
theorem sizeOf_children_lt_of_mem {n : Node} {ns : List Node} (h : n ∈ ns) :
    sizeOf n.children < sizeOf ns := by
  have h1 := List.sizeOf_lt_of_mem h
  cases n with
  | mk nm cp d sl f st cs => simp [Node.children] at h1 ⊢; omega

theorem ForestDedup.names_distinct {ns : List Node} (h : ForestDedup ns) :
    List.Pairwise (fun a b : Node => a.name ≠ b.name) ns := by
  induction h with
  | nil => exact List.Pairwise.nil
  | cons hnames _ _ _ ihrest =>
    exact List.Pairwise.cons (fun m hm => (hnames m hm).symm) ihrest

theorem ForestDedup.children_of_mem {ns : List Node} (h : ForestDedup ns) :
    ∀ n ∈ ns, ForestDedup n.children := by
  induction h with
  | nil => intro n hn; simp at hn
  | cons _ hchild _ _ ihrest =>
    intro m hm
    rcases List.mem_cons.mp hm with hm | hm
    · rw [hm]; exact hchild
    · exact ihrest m hm

theorem forestDedup_of {ns : List Node}
    (h1 : List.Pairwise (fun a b : Node => a.name ≠ b.name) ns)
    (h2 : ∀ n ∈ ns, ForestDedup n.children) : ForestDedup ns := by
  induction ns with
  | nil => exact .nil
  | cons n ns ih =>
    rcases List.pairwise_cons.mp h1 with ⟨hhead, hrest⟩
    exact .cons (fun m hm => (hhead m hm).symm)
      (h2 n (List.mem_cons_self n ns)) (ih hrest (fun m hm => h2 m (List.mem_cons_of_mem n hm)))

/-- Sorting every listing preserves the name-dedup invariant. -/
theorem forestDedup_sortListing (rev : Bool) :
    ∀ (sz : Nat) (ns : List Node), sizeOf ns < sz → ForestDedup ns →
      ForestDedup (sortListing rev ns) := by
  intro sz
  induction sz with
  | zero => intro ns h; omega
  | succ sz ih =>
    intro ns hsz hd
    refine forestDedup_of ?_ ?_
    · have hperm := sortListing_perm rev ns
      have hmap : List.Pairwise (fun a b : Node => a.name ≠ b.name) (ns.map (sortTree rev)) := by
        refine List.Pairwise.map (sortTree rev) ?_ hd.names_distinct
        intro a b hne
        rw [sortTree_name, sortTree_name]
        exact hne
      exact hperm.pairwise_iff (fun hne => hne ∘ Eq.symm) |>.mpr hmap
    · intro n hn
      rcases mem_sortListing hn with ⟨m, hm, rfl⟩
      rw [sortTree_children]
      exact ih m.children (by
          have := sizeOf_children_lt_of_mem hm
          omega)
        (hd.children_of_mem m hm)

theorem forestSorted_of {rev : Bool} {ns : List Node}
    (h1 : List.Pairwise (nodeLe rev) ns)
    (h2 : ∀ n ∈ ns, ForestSorted rev n.children) : ForestSorted rev ns := by
  induction ns with
  | nil => exact .nil
  | cons n ns ih =>
    rcases List.pairwise_cons.mp h1 with ⟨hhead, hrest⟩
    exact .cons hhead (h2 n (List.mem_cons_self n ns))
      (ih hrest (fun m hm => h2 m (List.mem_cons_of_mem n hm)))

/-- `sortListing` establishes the recursive sortedness invariant. -/
theorem forestSorted_sortListing (rev : Bool) :
    ∀ (sz : Nat) (ns : List Node), sizeOf ns < sz →
      ForestSorted rev (sortListing rev ns) := by
  intro sz
  induction sz with
  | zero => intro ns h; omega
  | succ sz ih =>
    intro ns hsz
    refine forestSorted_of (pairwise_sortListing rev ns) ?_
    intro n hn
    rcases mem_sortListing hn with ⟨m, hm, rfl⟩
    rw [sortTree_children]
    exact ih m.children (by
      have := sizeOf_children_lt_of_mem hm
      omega)

/-- Entries of a sorted, name-deduplicated walk are pairwise ordered by the
comparator whenever they are siblings (same parent path in the output). -/
theorem walkForest_sibling_pairwise (rev sh : Bool) (maxD : Nat) :
    ∀ (fuel depth : Nat) (path : List OsName) (ns : List Node),
      ForestSorted rev ns → ForestDedup ns →
      List.Pairwise
        (fun e1 e2 : Entry => e1.1.dropLast = e2.1.dropLast → nodeLe rev e1.2 e2.2)
        (walkForest sh maxD fuel depth path ns) := by
  intro fuel
  induction fuel with
  | zero =>
    intro depth path ns _ _
    simp [walkForest]
  | succ fuel ihf =>
    intro depth path ns hs hd
    revert hd
    induction hs with
    | nil =>
      intro _
      simp [walkForest]
    | @cons n ns hhead hchild hrest ihchild ihrest =>
      intro hd
      rcases hd with _ | ⟨hdnames, hdchild, hdrest⟩
      have hsplit : walkForest sh maxD (fuel + 1) depth path (n :: ns) =
          (if depth ≤ maxD then
            (if keepEntry sh n then
              (path ++ [n.name], n) ::
                walkForest sh maxD fuel (depth + 1) (path ++ [n.name]) n.children
             else [])
           else [])
          ++ walkForest sh maxD (fuel + 1) depth path ns := rfl
      rw [hsplit, List.pairwise_append]
      refine ⟨?_, ihrest hdrest, ?_⟩
      · by_cases hdep : depth ≤ maxD
        · rw [if_pos hdep]
          by_cases hkeep : keepEntry sh n = true
          · rw [if_pos hkeep, List.pairwise_cons]
            constructor
            · intro e he heq
              exfalso
              rcases walkForest_shape sh maxD fuel (depth + 1) (path ++ [n.name])
                n.children e he with ⟨m, _, rest', he1, _⟩
              have hlen := congrArg List.length heq
              rw [List.dropLast_concat, he1,
                List.dropLast_append_of_ne_nil _ (List.cons_ne_nil m.name rest')] at hlen
              simp at hlen
            · exact ihf (depth + 1) (path ++ [n.name]) n.children hchild hdchild
          · rw [if_neg hkeep]
            exact List.Pairwise.nil
        · rw [if_neg hdep]
          exact List.Pairwise.nil
      · intro a ha b hb
        rcases walkForest_shape sh maxD (fuel + 1) depth path ns b hb with
          ⟨m, hm, restb, hb1, hb2⟩
        by_cases hdep : depth ≤ maxD
        · rw [if_pos hdep] at ha
          by_cases hkeep : keepEntry sh n = true
          · rw [if_pos hkeep] at ha
            rcases List.mem_cons.mp ha with ha | ha
            · -- `a` is the entry of `n` itself
              subst ha
              intro heq
              cases restb with
              | nil =>
                rw [hb2 rfl]
                exact hhead m hm
              | cons r rs =>
                exfalso
                have hlen := congrArg List.length heq
                rw [List.dropLast_concat, hb1,
                  List.dropLast_append_of_ne_nil _ (List.cons_ne_nil m.name (r :: rs))] at hlen
                simp [List.length_dropLast] at hlen
            · -- `a` is strictly below `n`; same parent would force equal sibling names
              intro heq
              exfalso
              rcases walkForest_shape sh maxD fuel (depth + 1) (path ++ [n.name])
                n.children a ha with ⟨k, _, resta, ha1, _⟩
              have ha1' : a.1 = path ++ n.name :: (k.name :: resta) := by
                rw [ha1]; simp
              cases restb with
              | nil =>
                have hlen := congrArg List.length heq
                rw [hb1, List.dropLast_concat, ha1',
                  List.dropLast_append_of_ne_nil _
                    (List.cons_ne_nil n.name (k.name :: resta))] at hlen
                simp [List.length_dropLast] at hlen
              | cons r rs =>
                rw [ha1', hb1,
                  List.dropLast_append_of_ne_nil _
                    (List.cons_ne_nil n.name (k.name :: resta)),
                  List.dropLast_append_of_ne_nil _
                    (List.cons_ne_nil m.name (r :: rs))] at heq
                have := List.append_cancel_left heq
                rw [List.dropLast_cons_of_ne_nil (List.cons_ne_nil k.name resta),
                  List.dropLast_cons_of_ne_nil (List.cons_ne_nil r rs)] at this
                exact hdnames m hm (List.cons_eq_cons.mp this).1.symm
          · rw [if_neg hkeep] at ha
            simp at ha
        · rw [if_neg hdep] at ha
          simp at ha

/-! ## Hidden-entry pruning (C2) -/

/-- Every entry emitted by a walk with `show_hidden = false` has a path all
of whose components are non-hidden names, provided the path prefix walked so
far does. -/
theorem walkForest_no_hidden (maxD : Nat) :
    ∀ (fuel depth : Nat) (path : List OsName) (ns : List Node),
      (∀ nm ∈ path, hiddenName nm = false) →
      ∀ e ∈ walkForest false maxD fuel depth path ns, ∀ nm ∈ e.1, hiddenName nm = false := by
  intro fuel
  induction fuel with
  | zero =>
    intro depth path ns hpath e he
    simp [walkForest] at he
  | succ fuel ih =>
    intro depth path ns hpath e he
    rw [walkForest] at he
    rcases List.mem_flatMap.mp he with ⟨n, hn, hmem⟩
    by_cases hd : depth ≤ maxD
    · rw [if_pos hd] at hmem
      by_cases hk : keepEntry false n = true
      · rw [if_pos hk] at hmem
        have hnh : hiddenName n.name = false := by
          simpa [keepEntry, is_hidden] using hk
        have hpath2 : ∀ nm ∈ path ++ [n.name], hiddenName nm = false := by
          intro nm hnm
          rcases List.mem_append.mp hnm with hnm | hnm
          · exact hpath nm hnm
          · simpa [List.mem_singleton.mp hnm] using hnh
        rcases List.mem_cons.mp hmem with hmem | hmem
        · intro nm hnm
          rw [hmem] at hnm
          exact hpath2 nm hnm
        · exact ih (depth + 1) (path ++ [n.name]) n.children hpath2 e hmem
      · rw [if_neg hk] at hmem
        simp at hmem
    · rw [if_neg hd] at hmem
      simp at hmem

/-- Every node the walkdir iterator touches with `show_hidden = false` has
only non-hidden proper ancestors: nothing beneath a rejected directory is
ever read. -/
theorem visitedPaths_ancestors_not_hidden (maxD : Nat) :
    ∀ (fuel depth : Nat) (path : List OsName) (ns : List Node),
      (∀ nm ∈ path, hiddenName nm = false) →
      ∀ p ∈ visitedPaths false maxD fuel depth path ns,
        ∀ nm ∈ p.dropLast, hiddenName nm = false := by
  intro fuel
  induction fuel with
  | zero =>
    intro depth path ns hpath p hp
    simp [visitedPaths] at hp
  | succ fuel ih =>
    intro depth path ns hpath p hp
    rw [visitedPaths] at hp
    rcases List.mem_flatMap.mp hp with ⟨n, hn, hmem⟩
    by_cases hd : depth ≤ maxD
    · rw [if_pos hd] at hmem
      rcases List.mem_cons.mp hmem with hmem | hmem
      · intro nm hnm
        rw [hmem] at hnm
        simp only [List.dropLast_concat] at hnm
        exact hpath nm hnm
      · by_cases hk : keepEntry false n = true
        · rw [if_pos hk] at hmem
          have hnh : hiddenName n.name = false := by
            simpa [keepEntry, is_hidden] using hk
          have hpath2 : ∀ nm ∈ path ++ [n.name], hiddenName nm = false := by
            intro nm hnm
            rcases List.mem_append.mp hnm with hnm | hnm
            · exact hpath nm hnm
            · simpa [List.mem_singleton.mp hnm] using hnh
          exact ih (depth + 1) (path ++ [n.name]) n.children hpath2 p hmem
        · rw [if_neg hk] at hmem
          simp at hmem
    · rw [if_neg hd] at hmem
      simp at hmem

/-- Claim C2: with `show_hidden = false`, no emitted entry has a hidden name
anywhere on its path — a hidden directory is neither emitted itself nor is
anything beneath it (at any depth, hidden or not) — and, beyond the emitted
output, the iterator never even touches a node whose proper ancestors
include a hidden directory: the whole subtree of a rejected directory is
unreachable, not merely undisplayed. -/
theorem c2_hidden_dirs_pruned (cfg : Config) (fs : List Node)
    (h : cfg.show_hidden = false) :
    ((viewEntries cfg fs).all fun e => e.1.all fun nm => !hiddenName nm) = true ∧
    ((viewVisited cfg fs).all fun p => p.dropLast.all fun nm => !hiddenName nm) = true := by
  constructor
  · rw [List.all_eq_true]
    intro e he
    rw [List.all_eq_true]
    intro nm hnm
    unfold viewEntries at he
    rw [h] at he
    have := walkForest_no_hidden (cfg.max_depth.getD 1) (cfg.max_depth.getD 1) 1 []
      (sortListing cfg.reversed fs) (by simp) e he nm hnm
    simp [this]
  · rw [List.all_eq_true]
    intro p hp
    rw [List.all_eq_true]
    intro nm hnm
    unfold viewVisited at hp
    rw [h] at hp
    have := visitedPaths_ancestors_not_hidden (cfg.max_depth.getD 1) (cfg.max_depth.getD 1) 1 []
      (sortListing cfg.reversed fs) (by simp) p hp nm hnm
    simp [this]

/-- Witness for `c2_hidden_dirs_pruned`: the spec's end-to-end example — a
root with visible `a.txt` and hidden `.git/` containing `config`, walked
with `show_hidden = false` and `max_depth = 5`, emits exactly the one row
for `a.txt`. -/
theorem c2_hidden_dirs_pruned_witness :
    ((viewEntries ⟨some 5, false, false, false, some .Bytes, false⟩
        [dirNode (".git") (some 1) [fileNode ("config") (some 2) 5],
         fileNode ("a.txt") (some 5) 7]).all
      fun e => e.1.all fun nm => !hiddenName nm) = true ∧
    ((viewVisited ⟨some 5, false, false, false, some .Bytes, false⟩
        [dirNode (".git") (some 1) [fileNode ("config") (some 2) 5],
         fileNode ("a.txt") (some 5) 7]).all
      fun p => p.dropLast.all fun nm => !hiddenName nm) = true ∧
    (viewEntries ⟨some 5, false, false, false, some .Bytes, false⟩
        [dirNode (".git") (some 1) [fileNode ("config") (some 2) 5],
         fileNode ("a.txt") (some 5) 7]).map (fun e => e.1) =
      [[OsName.utf8 ("a.txt")]] := by
  refine ⟨(c2_hidden_dirs_pruned _ _ rfl).1, (c2_hidden_dirs_pruned _ _ rfl).2, ?_⟩
  rfl

/-! ## Absent creation time (C4) -/

/-- Claim C4 (counterexample): an absent creation time is replaced by the
Unix epoch, which is not the oldest representable `SystemTime` — with
sibling files A (no timestamp) and B (created one second before the epoch),
the ascending order is [B, A], not the [A, B] the claim requires for every
available timestamp. -/
theorem c4_absent_ctime_counterexample :
    (viewEntries ⟨some 1, false, true, false, some .Bytes, false⟩
        [fileNode ("a") none 1, fileNode ("b") (some (-1)) 1]).map (fun e => e.1) =
      [[OsName.utf8 ("b")], [OsName.utf8 ("a")]] ∧
    (viewEntries ⟨some 1, false, true, false, some .Bytes, false⟩
        [fileNode ("a") none 1, fileNode ("b") (some (-1)) 1]).map (fun e => e.1) ≠
      [[OsName.utf8 ("a")], [OsName.utf8 ("b")]] := by
  exact ⟨rfl, by decide⟩

/-- Claim C4 (amended): an absent creation time is treated as exactly the
Unix epoch, not as the oldest possible value: for siblings A (no timestamp)
and B (timestamp T strictly after the epoch), ascending order yields [A, B]
and reversed order yields [B, A]; a timestamp at or before the epoch does
not sort after A (see the counterexample with T one second before the
epoch). -/
theorem c4_absent_ctime_epoch (na nb : String) (T : Int) (hT : 0 < T) :
    (viewEntries ⟨some 1, false, true, false, some .Bytes, false⟩
        [fileNode na none 1, fileNode nb (some T) 1]).map (fun e => e.1) =
      [[OsName.utf8 na], [OsName.utf8 nb]] ∧
    (viewEntries ⟨some 1, false, true, false, some .Bytes, true⟩
        [fileNode na none 1, fileNode nb (some T) 1]).map (fun e => e.1) =
      [[OsName.utf8 nb], [OsName.utf8 na]] := by
  have hkA : createdKey (fileNode na none 1) = 0 := rfl
  have hkB : createdKey (fileNode nb (some T) 1) = T := rfl
  have hle : nodeLe false (fileNode na none 1) (fileNode nb (some T) 1) := by
    rw [nodeLe_false_iff, hkA, hkB]; omega
  have hnle : ¬ nodeLe true (fileNode na none 1) (fileNode nb (some T) 1) := by
    rw [nodeLe_true_iff, hkA, hkB]; omega
  constructor
  · unfold viewEntries sortListing
    simp only [Option.getD]
    show (walkForest true 1 1 1 []
      (List.insertionSort (nodeLe false)
        (sortForest false [fileNode na none 1, fileNode nb (some T) 1]))).map (fun e => e.1) = _
    have hsf : sortForest false [fileNode na none 1, fileNode nb (some T) 1] =
        [fileNode na none 1, fileNode nb (some T) 1] := rfl
    rw [hsf]
    simp only [List.insertionSort, List.orderedInsert]
    rw [if_pos hle]
    rfl
  · unfold viewEntries sortListing
    simp only [Option.getD]
    show (walkForest true 1 1 1 []
      (List.insertionSort (nodeLe true)
        (sortForest true [fileNode na none 1, fileNode nb (some T) 1]))).map (fun e => e.1) = _
    have hsf : sortForest true [fileNode na none 1, fileNode nb (some T) 1] =
        [fileNode na none 1, fileNode nb (some T) 1] := rfl
    rw [hsf]
    simp only [List.insertionSort, List.orderedInsert]
    rw [if_neg hnle]
    rfl

/-! ## Output ordering (C3) -/

/-- Claim C3 (counterexample): the output is not globally ordered by
creation time.  With a directory `a` created at time 10 containing a file
`x` created at time 3, and a sibling file `b` created at time 5, the
ascending walk emits `b` (5), then `a` (10), then `a/x` (3): the entry `a`
precedes `a/x` although 10 > 3, because walkdir's `sort_by` orders each
directory's listing separately and the traversal is depth-first (parents
precede their subtrees). -/
theorem c3_not_globally_sorted :
    (viewEntries ⟨some 2, false, true, false, some .Bytes, false⟩
        [dirNode ("a") (some 10) [fileNode ("x") (some 3) 5],
         fileNode ("b") (some 5) 7]).map entryProj =
      [([OsName.utf8 ("b")], 5), ([OsName.utf8 ("a")], 10),
       ([OsName.utf8 ("a"), OsName.utf8 ("x")], 3)] ∧
    ¬ ((10 : Int) ≤ 3) :=
  ⟨rfl, by omega⟩

/-- Claim C3 (amended): the output is ordered by creation time among
siblings: for any two emitted entries X before Y whose paths share the same
parent directory, X's creation key is ≤ Y's when `reversed` is false and
≥ Y's when `reversed` is true (keys default to the epoch when the creation
time is absent); entries from different directories appear in depth-first
order (a directory precedes its subtree) and need not be globally sorted.
Requires pairwise-distinct sibling names, as on a real filesystem. -/
theorem c3_sibling_sorted (cfg : Config) (fs : List Node) (hd : ForestDedup fs) :
    List.Pairwise
      (fun e1 e2 : Entry => e1.1.dropLast = e2.1.dropLast →
        (if cfg.reversed then createdKey e2.2 ≤ createdKey e1.2
         else createdKey e1.2 ≤ createdKey e2.2))
      (viewEntries cfg fs) := by
  have hmaster := walkForest_sibling_pairwise cfg.reversed cfg.show_hidden
    (cfg.max_depth.getD 1) (cfg.max_depth.getD 1) 1 [] (sortListing cfg.reversed fs)
    (forestSorted_sortListing cfg.reversed (sizeOf fs + 1) fs (by omega))
    (forestDedup_sortListing cfg.reversed (sizeOf fs + 1) fs (by omega) hd)
  refine hmaster.imp ?_
  intro e1 e2 h heq
  have hle := h heq
  cases hr : cfg.reversed
  · rw [hr] at hle
    rw [if_neg (by simp)]
    exact (nodeLe_false_iff e1.2 e2.2).mp hle
  · rw [hr] at hle
    rw [if_pos rfl]
    exact (nodeLe_true_iff e1.2 e2.2).mp hle

/-- Witness for `c3_sibling_sorted` on the counterexample tree (ascending
mode): its sibling pairs are ordered even though the full output is not. -/
theorem c3_sibling_sorted_witness :
    List.Pairwise
      (fun e1 e2 : Entry => e1.1.dropLast = e2.1.dropLast →
        (if (false : Bool) then createdKey e2.2 ≤ createdKey e1.2
         else createdKey e1.2 ≤ createdKey e2.2))
      (viewEntries ⟨some 2, false, true, false, some .Bytes, false⟩
        [dirNode ("a") (some 10) [fileNode ("x") (some 3) 5],
         fileNode ("b") (some 5) 7]) :=
  c3_sibling_sorted ⟨some 2, false, true, false, some .Bytes, false⟩
    [dirNode ("a") (some 10) [fileNode ("x") (some 3) 5], fileNode ("b") (some 5) 7]
    (.cons (by decide) (.cons (by decide) .nil .nil) (.cons (by decide) .nil .nil))

/-! ## Tie stability (C5) -/

theorem tieClass_append (q : List OsName) (k : Int) (l1 l2 : List Entry) :
    tieClass q k (l1 ++ l2) = tieClass q k l1 ++ tieClass q k l2 := by
  rw [tieClass, List.filter_append, List.map_append]; rfl

theorem tieClass_eq_nil_of_no_match (q : List OsName) (k : Int) (l : List Entry)
    (h : ∀ e ∈ l, e.1.dropLast ≠ q) : tieClass q k l = [] := by
  rw [tieClass, List.filter_eq_nil_iff.mpr, List.map_nil]
  intro e he
  simp only [Bool.and_eq_true, beq_iff_eq, not_and]
  intro heq
  exact absurd heq (h e he)

/-- The parent path of any entry of a sub-walk rooted below `base ++ [nm]`
extends `base` by `nm`. -/
theorem walkForest_dropLast_shape (sh : Bool) (maxD : Nat) (fuel depth : Nat)
    (base : List OsName) (nm : OsName) (cs : List Node) :
    ∀ e ∈ walkForest sh maxD fuel depth (base ++ [nm]) cs,
      ∃ t : List OsName, e.1.dropLast = base ++ nm :: t := by
  intro e he
  rcases walkForest_shape sh maxD fuel depth (base ++ [nm]) cs e he with
    ⟨m, _, rest, he1, _⟩
  refine ⟨(m.name :: rest).dropLast, ?_⟩
  rw [he1, List.dropLast_append_of_ne_nil _ (List.cons_ne_nil m.name rest)]
  simp

/-- A sub-walk below a sibling contributes nothing to the tie class of the
parent level. -/
theorem tieClass_walk_below_self (sh : Bool) (maxD : Nat) (k : Int)
    (fuel depth : Nat) (base : List OsName) (nm : OsName) (cs : List Node) :
    tieClass base k (walkForest sh maxD fuel depth (base ++ [nm]) cs) = [] := by
  refine tieClass_eq_nil_of_no_match _ _ _ ?_
  intro e he heq
  rcases walkForest_dropLast_shape sh maxD fuel depth base nm cs e he with ⟨t, ht⟩
  have := congrArg List.length (ht.symm.trans heq)
  simp at this

/-- A sub-walk below a sibling named differently from `c` contributes
nothing to the tie class of any directory `base ++ c :: q'`. -/
theorem tieClass_walk_below_other (sh : Bool) (maxD : Nat) (k : Int)
    (fuel depth : Nat) (base : List OsName) (nm c : OsName) (q' : List OsName)
    (cs : List Node) (hne : nm ≠ c) :
    tieClass (base ++ c :: q') k (walkForest sh maxD fuel depth (base ++ [nm]) cs) = [] := by
  refine tieClass_eq_nil_of_no_match _ _ _ ?_
  intro e he heq
  rcases walkForest_dropLast_shape sh maxD fuel depth base nm cs e he with ⟨t, ht⟩
  rw [ht] at heq
  exact hne (List.cons_eq_cons.mp (List.append_cancel_left heq)).1

theorem tieClass_cons (q : List OsName) (k : Int) (e : Entry) (l : List Entry) :
    tieClass q k (e :: l) =
      if ((e.1.dropLast == q) && (createdKey e.2 == k)) = true then
        entryProj e :: tieClass q k l
      else tieClass q k l := by
  rw [tieClass, List.filter_cons]
  by_cases h : ((e.1.dropLast == q) && (createdKey e.2 == k)) = true
  · rw [if_pos h, if_pos h, List.map_cons]; rfl
  · rw [if_neg h, if_neg h]; rfl

/-- Closed form of the tie class of the walked level itself: the kept nodes
of the listing with the right key, in listing order. -/
theorem tieClass_walk_self (sh : Bool) (maxD : Nat) (k : Int) (fuel depth : Nat)
    (path : List OsName) :
    ∀ ns : List Node,
      tieClass path k (walkForest sh maxD (fuel + 1) depth path ns) =
        if depth ≤ maxD then
          (ns.filter (fun n => keepEntry sh n && (createdKey n == k))).map
            (fun n => (path ++ [n.name], createdKey n))
        else [] := by
  intro ns
  induction ns with
  | nil =>
    by_cases hdep : depth ≤ maxD <;> simp [walkForest, tieClass, hdep]
  | cons n ns ih =>
    have hsplit : walkForest sh maxD (fuel + 1) depth path (n :: ns) =
        (if depth ≤ maxD then
          (if keepEntry sh n then
            (path ++ [n.name], n) ::
              walkForest sh maxD fuel (depth + 1) (path ++ [n.name]) n.children
           else [])
         else [])
        ++ walkForest sh maxD (fuel + 1) depth path ns := rfl
    rw [hsplit, tieClass_append, ih]
    by_cases hdep : depth ≤ maxD
    · rw [if_pos hdep, if_pos hdep, if_pos hdep, List.filter_cons]
      by_cases hkeep : keepEntry sh n = true
      · rw [if_pos hkeep, tieClass_cons,
          tieClass_walk_below_self sh maxD k fuel (depth + 1) path n.name n.children]
        have hdrop : (((path ++ [n.name], n) : Entry).1.dropLast == path) = true := by
          simp [List.dropLast_concat]
        by_cases hkey : (createdKey n == k) = true
        · rw [if_pos (by simp [hdrop, hkey]), if_pos (by simp [hkeep, hkey]), List.map_cons]
          rfl
        · rw [if_neg (by simp [hkey]), if_neg (by simp [hkey]), List.nil_append]
      · rw [if_neg hkeep, if_neg (by simp [hkeep])]
        rfl
    · rw [if_neg hdep, if_neg hdep, if_neg hdep]
      rfl

/-- Closed form of the tie class of a deeper directory `path ++ c :: q'`:
only the sub-walk of the kept sibling named `c` can contribute. -/
theorem tieClass_walk_deep (sh : Bool) (maxD : Nat) (k : Int) (c : OsName)
    (q' : List OsName) (fuel depth : Nat) (path : List OsName) :
    ∀ ns : List Node,
      tieClass (path ++ c :: q') k (walkForest sh maxD (fuel + 1) depth path ns) =
        ns.flatMap (fun n =>
          if depth ≤ maxD ∧ keepEntry sh n = true ∧ n.name = c then
            tieClass (path ++ c :: q') k
              (walkForest sh maxD fuel (depth + 1) (path ++ [n.name]) n.children)
          else []) := by
  intro ns
  induction ns with
  | nil => simp [walkForest, tieClass]
  | cons n ns ih =>
    have hsplit : walkForest sh maxD (fuel + 1) depth path (n :: ns) =
        (if depth ≤ maxD then
          (if keepEntry sh n then
            (path ++ [n.name], n) ::
              walkForest sh maxD fuel (depth + 1) (path ++ [n.name]) n.children
           else [])
         else [])
        ++ walkForest sh maxD (fuel + 1) depth path ns := rfl
    rw [hsplit, tieClass_append, ih, List.flatMap_cons]
    congr 1
    by_cases hdep : depth ≤ maxD
    · rw [if_pos hdep]
      by_cases hkeep : keepEntry sh n = true
      · rw [if_pos hkeep, tieClass_cons]
        have hcond : ((((path ++ [n.name], n) : Entry).1.dropLast == path ++ c :: q')
            = true) = False := by
          simp only [List.dropLast_concat, beq_iff_eq, eq_iff_iff, iff_false]
          intro h
          have := congrArg List.length h
          simp at this
        rw [if_neg (by simp [hcond])]
        by_cases hname : n.name = c
        · rw [if_pos ⟨hdep, hkeep, hname⟩]
        · rw [if_neg (by tauto)]
          exact tieClass_walk_below_other sh maxD k fuel (depth + 1) path n.name c q'
            n.children hname
      · rw [if_neg hkeep, if_neg (by tauto)]
        rfl
    · rw [if_neg hdep, if_neg (by tauto)]
      rfl

/-- A `flatMap` is supported on the elements satisfying `p` when the others
yield nothing. -/
theorem flatMap_filter_support {α β : Type} (g : α → List β) (p : α → Bool) :
    ∀ l : List α, (∀ x ∈ l, p x = false → g x = []) →
      l.flatMap g = (l.filter p).flatMap g := by
  intro l
  induction l with
  | nil => intro _; rfl
  | cons a l ih =>
    intro h
    rw [List.flatMap_cons, List.filter_cons]
    by_cases hp : p a = true
    · rw [if_pos hp, List.flatMap_cons,
        ih (fun x hx hpx => h x (List.mem_cons_of_mem a hx) hpx)]
    · rw [if_neg hp, h a (List.mem_cons_self a l) (by simpa using hp),
        ih (fun x hx hpx => h x (List.mem_cons_of_mem a hx) hpx), List.nil_append]

/-- With pairwise-distinct sibling names, at most one node of a listing
carries a given name (even after further filtering). -/
theorem length_filter_name_le_one {ns : List Node}
    (hd : List.Pairwise (fun a b : Node => a.name ≠ b.name) ns) (p : Node → Bool)
    (c : OsName) (hp : ∀ n, p n = true → n.name = c) :
    (ns.filter p).length ≤ 1 := by
  induction hd with
  | nil => simp
  | @cons a l hhead _ ih =>
    rw [List.filter_cons]
    by_cases hc : p a = true
    · rw [if_pos hc]
      have hnil : l.filter p = [] := by
        rw [List.filter_eq_nil_iff]
        intro b hb hpb
        exact hhead b hb ((hp a hc).trans (hp b hpb).symm)
      rw [hnil]
      simp
    · rw [if_neg hc]
      exact ih

/-- Filtering the sorted listing by a sort-invariant predicate with at most
one match gives exactly the sorted versions of the original matches. -/
theorem filter_sortListing_of_subsingleton {rev : Bool} {ns : List Node}
    (p : Node → Bool) (hp : ∀ n, p (sortTree rev n) = p n)
    (hlen : (ns.filter p).length ≤ 1) :
    (sortListing rev ns).filter p = (ns.filter p).map (sortTree rev) := by
  have hperm : ((sortListing rev ns).filter p).Perm ((ns.map (sortTree rev)).filter p) :=
    (sortListing_perm rev ns).filter p
  rw [List.filter_map] at hperm
  simp only [Function.comp_def] at hperm
  rw [List.filter_congr (fun n _ => hp n)] at hperm
  cases hfil : ns.filter p with
  | nil =>
    rw [hfil] at hperm
    simpa using hperm.eq_nil
  | cons m ms =>
    cases ms with
    | nil =>
      rw [hfil] at hperm
      rw [List.map_cons, List.map_nil] at hperm ⊢
      exact List.perm_singleton.mp hperm
    | cons m2 ms2 =>
      rw [hfil] at hlen
      simp at hlen

theorem flatMap_eq_nil_of {α β : Type} (f : α → List β) :
    ∀ l : List α, (∀ x ∈ l, f x = []) → l.flatMap f = [] := by
  intro l
  induction l with
  | nil => intro _; rfl
  | cons a l ih =>
    intro h
    rw [List.flatMap_cons, h a (List.mem_cons_self a l),
      ih (fun x hx => h x (List.mem_cons_of_mem a hx)), List.nil_append]

/-- A walk contributes nothing to the tie class of a directory that does not
lie below the walked path. -/
theorem tieClass_walk_outside (sh : Bool) (maxD : Nat) (k : Int)
    (fuel depth : Nat) (path q : List OsName) (ns : List Node)
    (hq : ¬ path <+: q) :
    tieClass q k (walkForest sh maxD fuel depth path ns) = [] := by
  refine tieClass_eq_nil_of_no_match _ _ _ ?_
  intro e he heq
  rcases walkForest_shape sh maxD fuel depth path ns e he with ⟨n, _, rest, he1, _⟩
  apply hq
  rw [← heq, he1, List.dropLast_append_of_ne_nil _ (List.cons_ne_nil n.name rest)]
  exact List.prefix_append path _

/-- The tied class of one listing survives the stable sort in its discovery
order: the per-listing stability of Rust's `sort_by`. -/
theorem filter_keepKey_sortListing (rev sh : Bool) (k : Int) (ns : List Node) :
    (sortListing rev ns).filter (fun n => keepEntry sh n && (createdKey n == k)) =
      (ns.filter (fun n => keepEntry sh n && (createdKey n == k))).map (sortTree rev) := by
  have htied : ∀ a b : Node,
      (keepEntry sh a && (createdKey a == k)) = true →
      (keepEntry sh b && (createdKey b == k)) = true → nodeLe rev a b := by
    intro a b ha hb
    have hka : createdKey a = k := beq_iff_eq.mp (Bool.and_eq_true_iff.mp ha).2
    have hkb : createdKey b = k := beq_iff_eq.mp (Bool.and_eq_true_iff.mp hb).2
    cases rev
    · rw [nodeLe_false_iff, hka, hkb]
    · rw [nodeLe_true_iff, hka, hkb]
  rw [sortListing, insertionSort_filter_of_tied _ htied, sortForest_eq_map, List.filter_map]
  simp only [Function.comp_def]
  rw [List.filter_congr
    (fun n _ => by rw [sortTree_keepEntry, sortTree_createdKey])]

/-- Sorting the tree does not change any sibling tie class of the output:
the projected subsequence of entries with a fixed parent and a fixed
creation key is the same for the sorted walk and the discovery walk. -/
theorem tieClass_walk_sorted (sh : Bool) (maxD : Nat) (rev : Bool) (k : Int) :
    ∀ (sz : Nat) (ms : List Node), sizeOf ms < sz → ForestDedup ms →
      ∀ (q path : List OsName) (fuel depth : Nat),
        tieClass q k (walkForest sh maxD fuel depth path (sortListing rev ms)) =
        tieClass q k (walkForest sh maxD fuel depth path ms) := by
  intro sz
  induction sz with
  | zero => intro ms h; omega
  | succ sz ih =>
    intro ms hsz hd q path fuel depth
    cases fuel with
    | zero => rfl
    | succ fuel =>
      by_cases hpre : path <+: q
      · rcases hpre with ⟨t, rfl⟩
        cases t with
        | nil =>
          rw [List.append_nil, tieClass_walk_self, tieClass_walk_self]
          by_cases hdep : depth ≤ maxD
          · rw [if_pos hdep, if_pos hdep, filter_keepKey_sortListing, List.map_map]
            refine List.map_congr_left ?_
            intro n _
            simp [Function.comp, sortTree_name, sortTree_createdKey]
          · rw [if_neg hdep, if_neg hdep]
        | cons c q' =>
          by_cases hdep : depth ≤ maxD
          · rw [tieClass_walk_deep, tieClass_walk_deep,
              flatMap_filter_support _ (fun n => keepEntry sh n && (n.name == c))
                (sortListing rev ms) ?_,
              flatMap_filter_support _ (fun n => keepEntry sh n && (n.name == c)) ms ?_]
            rotate_left
            · intro x _ hx
              rw [if_neg]
              rintro ⟨_, hk, hn⟩
              simp [hk, hn] at hx
            · intro x _ hx
              rw [if_neg]
              rintro ⟨_, hk, hn⟩
              simp [hk, hn] at hx
            have hfil : (sortListing rev ms).filter (fun n => keepEntry sh n && (n.name == c)) =
                (ms.filter (fun n => keepEntry sh n && (n.name == c))).map (sortTree rev) :=
              filter_sortListing_of_subsingleton _
                (fun n => by rw [sortTree_keepEntry, sortTree_name])
                (length_filter_name_le_one hd.names_distinct _ c
                  (fun n hn => beq_iff_eq.mp (Bool.and_eq_true_iff.mp hn).2))
            rw [hfil]
            cases hf : ms.filter (fun n => keepEntry sh n && (n.name == c)) with
            | nil => rfl
            | cons m0 ms0 =>
              cases ms0 with
              | cons m1 ms1 =>
                exfalso
                have := length_filter_name_le_one hd.names_distinct
                  (fun n => keepEntry sh n && (n.name == c)) c
                  (fun n hn => beq_iff_eq.mp (Bool.and_eq_true_iff.mp hn).2)
                rw [hf] at this
                simp at this
              | nil =>
                have hm0 : m0 ∈ ms ∧ (keepEntry sh m0 && (m0.name == c)) = true :=
                  List.mem_filter.mp (by rw [hf]; exact List.mem_singleton_self m0)
                have hm0keep : keepEntry sh m0 = true :=
                  (Bool.and_eq_true_iff.mp hm0.2).1
                have hm0name : m0.name = c :=
                  beq_iff_eq.mp (Bool.and_eq_true_iff.mp hm0.2).2
                rw [List.map_cons, List.map_nil, List.flatMap_cons, List.flatMap_cons]
                rw [if_pos ⟨hdep, by rw [sortTree_keepEntry]; exact hm0keep,
                    by rw [sortTree_name]; exact hm0name⟩,
                  if_pos ⟨hdep, hm0keep, hm0name⟩]
                rw [sortTree_name, sortTree_children]
                have hrec := ih m0.children
                  (by have h1 := sizeOf_children_lt_of_mem hm0.1; omega)
                  (hd.children_of_mem m0 hm0.1) (path ++ c :: q') (path ++ [m0.name])
                  fuel (depth + 1)
                rw [hrec]
          · have hwalk : ∀ l : List Node,
                walkForest sh maxD (fuel + 1) depth path l = [] := by
              intro l
              rw [walkForest]
              exact flatMap_eq_nil_of _ l (fun x _ => by rw [if_neg hdep])
            rw [hwalk, hwalk]
      · rw [tieClass_walk_outside sh maxD k (fuel + 1) depth path q _ hpre,
          tieClass_walk_outside sh maxD k (fuel + 1) depth path q _ hpre]

/-- Claim C5 (counterexample): relative output order of equal-key entries is
not preserved globally.  Directories `a` (time 10, containing `x` at time 7)
and `b` (time 5, containing `y` at time 7): in discovery order `a/x`
precedes `b/y`; in the ascending output `b` sorts before `a`, so `b/y`
precedes `a/x` — the equal-key pair `(a/x, b/y)` is flipped, because
sorting happens per directory and the cousins ride along with their
differently-keyed parents. -/
theorem c5_cousin_tie_reordered :
    (viewEntries ⟨some 2, false, true, false, some .Bytes, false⟩
        [dirNode ("a") (some 10) [fileNode ("x") (some 7) 5],
         dirNode ("b") (some 5) [fileNode ("y") (some 7) 5]]).map entryProj =
      [([OsName.utf8 ("b")], 5), ([OsName.utf8 ("b"), OsName.utf8 ("y")], 7),
       ([OsName.utf8 ("a")], 10), ([OsName.utf8 ("a"), OsName.utf8 ("x")], 7)] ∧
    (discoveryEntries ⟨some 2, false, true, false, some .Bytes, false⟩
        [dirNode ("a") (some 10) [fileNode ("x") (some 7) 5],
         dirNode ("b") (some 5) [fileNode ("y") (some 7) 5]]).map entryProj =
      [([OsName.utf8 ("a")], 10), ([OsName.utf8 ("a"), OsName.utf8 ("x")], 7),
       ([OsName.utf8 ("b")], 5), ([OsName.utf8 ("b"), OsName.utf8 ("y")], 7)] :=
  ⟨rfl, rfl⟩

/-- Claim C5 (amended): sorting is stable for SIBLINGS in both directions:
for every parent path `q` and creation key `k`, the projected subsequence of
emitted entries that are direct children of `q` with key `k` is identical
between the real (sorted) walk and the discovery-order walk — equal-key
siblings keep their traversal-discovered relative order — and the reversed
comparator applied to `(a, b)` is the ascending comparator applied to
`(b, a)` (comparator inversion, not post-hoc reversal).  Entries under
different parents can change relative order (see the counterexample).
Requires pairwise-distinct sibling names, as on a real filesystem. -/
theorem c5_sibling_tie_stability (cfg : Config) (fs : List Node) (hd : ForestDedup fs)
    (q : List OsName) (k : Int) :
    tieClass q k (viewEntries cfg fs) = tieClass q k (discoveryEntries cfg fs) ∧
    (∀ a b : Node, cmpEntries true a b = cmpEntries false b a) := by
  constructor
  · exact tieClass_walk_sorted cfg.show_hidden (cfg.max_depth.getD 1) cfg.reversed k
      (sizeOf fs + 1) fs (by omega) hd q [] (cfg.max_depth.getD 1) 1
  · intro a b; rfl

/-- Witness for `c5_sibling_tie_stability` on the counterexample tree, at
the parent `b` and key 7. -/
theorem c5_sibling_tie_stability_witness :
    tieClass [OsName.utf8 ("b")] 7
      (viewEntries ⟨some 2, false, true, false, some .Bytes, false⟩
        [dirNode ("a") (some 10) [fileNode ("x") (some 7) 5],
         dirNode ("b") (some 5) [fileNode ("y") (some 7) 5]]) =
    tieClass [OsName.utf8 ("b")] 7
      (discoveryEntries ⟨some 2, false, true, false, some .Bytes, false⟩
        [dirNode ("a") (some 10) [fileNode ("x") (some 7) 5],
         dirNode ("b") (some 5) [fileNode ("y") (some 7) 5]]) :=
  (c5_sibling_tie_stability ⟨some 2, false, true, false, some .Bytes, false⟩
    [dirNode ("a") (some 10) [fileNode ("x") (some 7) 5],
     dirNode ("b") (some 5) [fileNode ("y") (some 7) 5]]
    (.cons (by decide) (.cons (by decide) .nil .nil)
      (.cons (by decide) (.cons (by decide) .nil .nil) .nil))
    [OsName.utf8 ("b")] 7).1

/-- Witness for `c4_absent_ctime_epoch` at `T = 1`. -/
theorem c4_absent_ctime_epoch_witness :
    (viewEntries ⟨some 1, false, true, false, some .Bytes, false⟩
        [fileNode ("a") none 1, fileNode ("b") (some 1) 1]).map (fun e => e.1) =
      [[OsName.utf8 ("a")], [OsName.utf8 ("b")]] ∧
    (viewEntries ⟨some 1, false, true, false, some .Bytes, true⟩
        [fileNode ("a") none 1, fileNode ("b") (some 1) 1]).map (fun e => e.1) =
      [[OsName.utf8 ("b")], [OsName.utf8 ("a")]] :=
  c4_absent_ctime_epoch ("a") ("b") 1 (by decide)

/-! ## Name-resolution failure (C1) -/

/-- Claim C1 (evaluation at the failing input): a traversed entry whose file
name is not UTF-8 does not get a placeholder — `render_as_row`'s `map_err`
closure calls `std::process::exit(1)`, so the whole listing aborts.  With
three files created in order `good`, ⟨raw 0xFF⟩, `late`, the run prints only
the `good` row, then exits with code 1; the `late` entry is never rendered,
even though the `"-"` fallback for the name exists (unreachably) in the
code. -/
theorem c1_nonUtf8_name_exits_process :
    (view_files ⟨some 1, false, true, false, some .Bytes, false⟩
        [fileNode ("good") (some 1) 10, rawFileNode [255] (some 2) 3,
         fileNode ("late") (some 3) 4]).2 = some (ProcAbort.exit 1) ∧
    render_as_row (rawFileNode [255] (some 2) 3) false Unit.Bytes =
      .error (ProcAbort.exit 1) ∧
    (view_files ⟨some 1, false, true, false, some .Bytes, false⟩
        [fileNode ("good") (some 1) 10, rawFileNode [255] (some 2) 3,
         fileNode ("late") (some 3) 4]).1 =
      ((render_as_row (fileNode ("good") (some 1) 10) false Unit.Bytes).toOption.getD
        ("")) ++ "\n" :=
  ⟨rfl, rfl, rfl⟩

/-! ## Table mode (C7) -/

/-- Table mode emits each row followed by a blank line (`render_as_table`
adds one newline to the single wrapped row and `println!` adds another). -/
theorem runEntries_table_eq (c : Bool) (u : Unit) (ns : List Node) :
    runEntries true c u ns = emitAll (ns.map (fun n => render_as_row n c u)) ("\n\n") := by
  induction ns with
  | nil => rfl
  | cons n ns ih =>
    simp only [runEntries, render_as_table, List.map_cons, emitAll]
    cases h : render_as_row n c u with
    | error a => simp [h, emitAll, bind, Except.bind, Except.map]
    | ok row =>
      have h2 : ("\n\n" : String) = "\n" ++ "\n" := rfl
      simp [h, bind, Except.bind, Except.map, pure, Except.pure, emitAll, ih, h2,
        String.append_empty, String.append_assoc]

/-- Row mode emits each row followed by one newline. -/
theorem runEntries_row_eq (c : Bool) (u : Unit) (ns : List Node) :
    runEntries false c u ns = emitAll (ns.map (fun n => render_as_row n c u)) ("\n") := by
  induction ns with
  | nil => rfl
  | cons n ns ih =>
    simp only [runEntries, List.map_cons, emitAll]
    cases h : render_as_row n c u with
    | error a => simp [h, emitAll, Except.map]
    | ok row =>
      simp only [h, Except.map]
      simp [emitAll, ih]

/-- Claim C7 (counterexample): with two ordinary files, the table-mode output
is not the concatenation of the row-mode lines — table mode inserts an extra
blank line after every row, because `view_files` wraps each single entry in
`render_as_table(vec![entry])` (whose rows each end in `'\n'`) and then
prints that one-row block with `println!`, which appends a second newline. -/
theorem c7_table_not_row_concat :
    (view_files ⟨some 1, false, true, true, some .Bytes, false⟩
        [fileNode ("a") (some 1) 1, fileNode ("b") (some 2) 2]).1 ≠
    (view_files ⟨some 1, false, true, false, some .Bytes, false⟩
        [fileNode ("a") (some 1) 1, fileNode ("b") (some 2) 2]).1 := by
  decide

/-- Claim C7 (amended): table mode renders each entry with the same
`render_as_row` format and in the same order as row mode, but emits each row
followed by a blank line (row + two newlines) instead of accumulating the
rows into a single block; row mode emits each row followed by one newline. -/
theorem c7_table_blank_line_refinement (cfg : Config) (fs : List Node) :
    view_files (withTable cfg true) fs =
      emitAll ((viewEntries cfg fs).map
        (fun e => render_as_row e.2 cfg.canonicalize (cfg.unit.getD .Bytes))) ("\n\n") ∧
    view_files (withTable cfg false) fs =
      emitAll ((viewEntries cfg fs).map
        (fun e => render_as_row e.2 cfg.canonicalize (cfg.unit.getD .Bytes))) ("\n") := by
  constructor
  · show runEntries true cfg.canonicalize (cfg.unit.getD .Bytes)
      ((viewEntries cfg fs).map (·.2)) = _
    rw [runEntries_table_eq, List.map_map]
    rfl
  · show runEntries false cfg.canonicalize (cfg.unit.getD .Bytes)
      ((viewEntries cfg fs).map (·.2)) = _
    rw [runEntries_row_eq, List.map_map]
    rfl

end Fview
